import Mathlib

/-!
Verification of the utility layer of the deal.II `base/utilities.h` header.

The header implements `Utilities::fixed_power` inline; those definitions are
embedded directly from the source.  The remaining functions declared in the
header (`int_to_string`, `string_to_int`, `needed_digits`,
`split_string_list`, `break_text_into_lines`, `get_integer_at_position`) and
the `TrilinosTools` lifecycle are declared but implemented in a translation
unit that is not part of the sources at hand, so they are modelled from the
specification's contracts and verified against those models.
-/

namespace Utilities

/-- Embeds the `default:` branch of `fixed_power` (utilities.h, lines
359-363): `T result = n; for (unsigned int d=1; d<N; ++d) result *= n;
return result;`.  The loop body runs `N - 1` times (zero times when `N = 0`,
because the unsigned comparison `1 < 0` is immediately false). -/
def fixed_power_generic {T : Type} [Mul T] (N : Nat) (n : T) : T :=
  (List.range (N - 1)).foldl (fun r _ => r * n) n

/-- Embeds `Utilities::fixed_power<N,T>` (utilities.h, lines 344-365): a
switch on the compile-time exponent `N` with direct multiplication chains
for `N = 1, 2, 3, 4` and the generic accumulate-multiply loop otherwise.
The `Assert (N>0, ...)` is a debug-mode assertion; the value computed when
it is disabled is what this definition returns. -/
def fixed_power {T : Type} [Mul T] (N : Nat) (n : T) : T :=
  match N with
  | 1 => n
  | 2 => n * n
  | 3 => n * n * n
  | 4 => n * n * n * n
  | _ => fixed_power_generic N n

theorem foldl_mul_range {M : Type} [Monoid M] (v a : M) :
    ∀ k : Nat, (List.range k).foldl (fun r _ => r * v) a = a * v ^ k := by
  intro k
  induction k with
  | zero => simp
  | succ k ih =>
      rw [List.range_succ, List.foldl_append, ih]
      simp [pow_succ, mul_assoc]

theorem fixed_power_generic_succ {M : Type} [Monoid M] (N : Nat) (v : M) :
    fixed_power_generic (N + 1) v = v ^ (N + 1) := by
  unfold fixed_power_generic
  rw [Nat.add_sub_cancel, foldl_mul_range]
  exact (pow_succ' v N).symm

theorem fixed_power_eq_generic {T : Type} [Mul T] (N : Nat) (n : T)
    (h : 1 ≤ N) : fixed_power N n = fixed_power_generic N n := by
  match N with
  | 1 => rfl
  | 2 => rfl
  | 3 => rfl
  | 4 => rfl
  | (m + 5) => rfl

/-- C3: for every exponent `N ≥ 1` and every value `v` of a type with its
own (monoidal) multiplication, `fixed_power N v = v ^ N`; in particular
`fixed_power 3 2 = 8` and `fixed_power 1 x = x`. -/
theorem c3_fixed_power_computes_pow :
    (∀ (M : Type) [Monoid M] (N : Nat) (v : M), 1 ≤ N → fixed_power N v = v ^ N)
    ∧ fixed_power 3 (2 : Int) = 8
    ∧ (∀ x : Int, fixed_power 1 x = x) := by
  refine ⟨?_, by norm_num [fixed_power], fun x => rfl⟩
  intro M _ N v h
  rw [fixed_power_eq_generic N v h]
  match N, h with
  | (k + 1), _ => exact fixed_power_generic_succ k v

/-- C3 witness: the theorem instantiated at `N = 3`, `v = (2 : Int)`. -/
theorem c3_fixed_power_computes_pow_witness :
    fixed_power 3 (2 : Int) = 2 ^ 3 :=
  c3_fixed_power_computes_pow.1 Int 3 2 (by norm_num)

/-- C9: for `N ∈ {1,2,3,4}` the specialized direct-multiplication branches
of `fixed_power` return exactly what the generic accumulate-multiply loop
returns, for any value of any type with a multiplication (no associativity
needed). -/
theorem c9_special_cases_refine_generic_loop :
    ∀ (T : Type) [Mul T] (n : T) (N : Nat),
      (N = 1 ∨ N = 2 ∨ N = 3 ∨ N = 4) →
      fixed_power N n = fixed_power_generic N n := by
  intro T _ n N h
  rcases h with rfl | rfl | rfl | rfl <;> rfl

/-- C9 witness: the refinement theorem instantiated at `N = 4`, `n = (3 : Int)`. -/
theorem c9_special_cases_refine_generic_loop_witness :
    fixed_power 4 (3 : Int) = fixed_power_generic 4 (3 : Int) :=
  c9_special_cases_refine_generic_loop Int 3 4 (Or.inr (Or.inr (Or.inr rfl)))

/-- C10: with the debug assertion disabled, `fixed_power 0 n` falls into the
default branch whose loop runs zero times (unsigned `d = 1 < 0` is false),
so it returns the argument `n` unchanged — not `1` or any power of `n`, as
`fixed_power 0 (2 : Int) = 2 ≠ 1` shows. -/
theorem c10_fixed_power_zero_returns_argument :
    (∀ (T : Type) [Mul T] (n : T), fixed_power 0 n = n)
    ∧ fixed_power 0 (2 : Int) ≠ 1 := by
  constructor
  · intro T _ n
    rfl
  · decide

/-- Render one decimal digit value `d < 10` as a character, `'0'` to `'9'`. -/
def digitToChar (d : Nat) : Char := Char.ofNat (48 + d)

/-- Recognise a decimal digit character, returning its value. -/
def charToDigit (c : Char) : Option Nat :=
  if 48 ≤ c.toNat ∧ c.toNat ≤ 57 then some (c.toNat - 48) else none

/-- Big-endian decimal rendering of a natural number (the magnitude part of
`int_to_string`); `0` renders as `"0"`. -/
def natChars (n : Nat) : List Char :=
  if n = 0 then ['0'] else (Nat.digits 10 n).reverse.map digitToChar

/-- Modelled from the spec: `format_integer` / `int_to_string`, whose
implementation is in a translation unit absent from the sources.  Renders
an integer in base 10; if `min_digits` is given, left-pads the magnitude
with `'0'` to at least `min_digits` characters, the sign (if present)
preceding the padding; no padding when `min_digits` is omitted. -/
def format_integer (x : Int) (min_digits : Option Nat) : String :=
  let mag := natChars x.natAbs
  let padded :=
    match min_digits with
    | none => mag
    | some d => List.replicate (d - mag.length) '0' ++ mag
  if x < 0 then ⟨'-' :: padded⟩ else ⟨padded⟩

/-- Horner-style accumulation of a run of decimal digit characters; fails on
the first non-digit character. -/
def parseNatAux : List Char → Nat → Option Nat
  | [], acc => some acc
  | c :: rest, acc =>
      match charToDigit c with
      | some d => parseNatAux rest (acc * 10 + d)
      | none => none

/-- Character-list form of `parse_integer`: an optional leading `+`/`-`
followed by one or more decimal digits occupying the entire input; anything
else is a parse failure (`none`). -/
def parse_integer_chars : List Char → Option Int
  | [] => none
  | c :: rest =>
      if c = '-' then
        if rest = [] then none
        else (parseNatAux rest 0).map (fun n => -(n : Int))
      else if c = '+' then
        if rest = [] then none
        else (parseNatAux rest 0).map (fun n => (n : Int))
      else (parseNatAux (c :: rest) 0).map (fun n => (n : Int))

/-- Modelled from the spec: `parse_integer` / `string_to_int`, whose
implementation is in a translation unit absent from the sources. -/
def parse_integer (s : String) : Option Int :=
  parse_integer_chars s.data

theorem charToDigit_digitToChar {d : Nat} (h : d < 10) :
    charToDigit (digitToChar d) = some d := by
  interval_cases d <;> decide

theorem digitToChar_not_sign {d : Nat} (h : d < 10) :
    digitToChar d ≠ '-' ∧ digitToChar d ≠ '+' := by
  interval_cases d <;> exact ⟨by decide, by decide⟩

theorem parseNatAux_digit_map (L : List Nat) (hL : ∀ d ∈ L, d < 10) :
    ∀ acc : Nat,
      parseNatAux (L.map digitToChar) acc =
        some (L.foldl (fun a d => a * 10 + d) acc) := by
  induction L with
  | nil => intro acc; rfl
  | cons d L ih =>
      intro acc
      have hd : d < 10 := hL d (List.mem_cons_self d L)
      simp only [List.map_cons, List.foldl_cons, parseNatAux,
        charToDigit_digitToChar hd]
      exact ih (fun e he => hL e (List.mem_cons_of_mem d he)) (acc * 10 + d)

theorem foldl_base10 (L : List Nat) :
    ∀ acc : Nat,
      L.reverse.foldl (fun a d => a * 10 + d) acc =
        acc * 10 ^ L.length + Nat.ofDigits 10 L := by
  induction L with
  | nil => intro acc; simp [Nat.ofDigits]
  | cons d L ih =>
      intro acc
      rw [List.reverse_cons, List.foldl_append, ih acc]
      simp only [List.foldl_cons, List.foldl_nil, List.length_cons,
        Nat.ofDigits_cons, pow_succ]
      ring

theorem parseNatAux_natChars (n : Nat) : parseNatAux (natChars n) 0 = some n := by
  by_cases h : n = 0
  · subst h; rfl
  · unfold natChars
    rw [if_neg h,
      parseNatAux_digit_map _ (fun d hd =>
        Nat.digits_lt_base (by norm_num) (List.mem_reverse.mp hd)),
      foldl_base10]
    simp [Nat.ofDigits_digits]

theorem natChars_ne_nil (n : Nat) : natChars n ≠ [] := by
  unfold natChars
  by_cases h : n = 0
  · simp [h]
  · rw [if_neg h]
    simp [Nat.digits_ne_nil_iff_ne_zero.mpr h]

theorem natChars_head_not_sign {n : Nat} {c : Char} {cs : List Char}
    (h : natChars n = c :: cs) : c ≠ '-' ∧ c ≠ '+' := by
  by_cases h0 : n = 0
  · subst h0
    unfold natChars at h
    simp only [if_pos rfl] at h
    cases h
    exact ⟨by decide, by decide⟩
  · unfold natChars at h
    rw [if_neg h0] at h
    have hc : c ∈ (Nat.digits 10 n).reverse.map digitToChar := by
      rw [h]; exact List.mem_cons_self c cs
    obtain ⟨d, hd, rfl⟩ := List.mem_map.mp hc
    exact digitToChar_not_sign
      (Nat.digits_lt_base (by norm_num) (List.mem_reverse.mp hd))

theorem parseNatAux_zero_pad (l : List Char) :
    ∀ k : Nat, parseNatAux (List.replicate k '0' ++ l) 0 = parseNatAux l 0 := by
  intro k
  induction k with
  | zero => rfl
  | succ k ih =>
      rw [List.replicate_succ, List.cons_append]
      show parseNatAux (List.replicate k '0' ++ l) (0 * 10 + 0) = parseNatAux l 0
      rw [Nat.zero_mul, Nat.zero_add]
      exact ih

theorem parse_magnitude (n : Nat) (k : Nat) :
    parse_integer ⟨List.replicate k '0' ++ natChars n⟩ = some (n : Int) := by
  obtain ⟨c, cs, hcons⟩ :
      ∃ c cs, List.replicate k '0' ++ natChars n = c :: cs := by
    cases hl : List.replicate k '0' ++ natChars n with
    | nil =>
        rcases List.append_eq_nil.mp hl with ⟨-, h2⟩
        exact absurd h2 (natChars_ne_nil n)
    | cons c cs => exact ⟨c, cs, rfl⟩
  have hsign : c ≠ '-' ∧ c ≠ '+' := by
    cases k with
    | zero =>
        rw [List.replicate_zero, List.nil_append] at hcons
        exact natChars_head_not_sign hcons
    | succ k =>
        rw [List.replicate_succ, List.cons_append] at hcons
        cases hcons
        exact ⟨by decide, by decide⟩
  show parse_integer_chars (List.replicate k '0' ++ natChars n) = some (n : Int)
  rw [hcons, parse_integer_chars, if_neg hsign.1, if_neg hsign.2, ← hcons,
    parseNatAux_zero_pad, parseNatAux_natChars]
  rfl

/-- C2: round-trip — parsing the string produced by formatting any integer
(with no `min_digits` padding) returns the integer again:
`parse_integer (format_integer x none) = some x`. -/
theorem c2_parse_format_round_trip :
    ∀ x : Int, parse_integer (format_integer x none) = some x := by
  intro x
  unfold format_integer
  by_cases hx : x < 0
  · rw [if_pos hx]
    show parse_integer_chars ('-' :: natChars x.natAbs) = some x
    rw [parse_integer_chars, if_pos rfl,
      if_neg (natChars_ne_nil x.natAbs), parseNatAux_natChars]
    show some (-((x.natAbs : Nat) : Int)) = some x
    congr 1
    omega
  · rw [if_neg hx]
    have := parse_magnitude x.natAbs 0
    rw [List.replicate_zero, List.nil_append] at this
    rw [this]
    congr 1
    omega

/-- C4: for `x ≥ 0` and any `d`, `format_integer x (some d)` is the decimal
magnitude left-padded with `'0'` to at least `d` characters, its length is
at least `d`, and `parse_integer` recovers `x` from it. -/
theorem c4_format_integer_min_digits :
    ∀ (x : Int) (d : Nat), 0 ≤ x →
      (format_integer x (some d)).data =
          List.replicate (d - (natChars x.natAbs).length) '0' ++ natChars x.natAbs
      ∧ d ≤ (format_integer x (some d)).length
      ∧ parse_integer (format_integer x (some d)) = some x := by
  intro x d hx
  have hneg : ¬ x < 0 := by omega
  have hdata : (format_integer x (some d)).data =
      List.replicate (d - (natChars x.natAbs).length) '0' ++ natChars x.natAbs := by
    unfold format_integer
    rw [if_neg hneg]
  refine ⟨hdata, ?_, ?_⟩
  · have hlen : (format_integer x (some d)).length =
        (d - (natChars x.natAbs).length) + (natChars x.natAbs).length := by
      rw [String.length, hdata, List.length_append, List.length_replicate]
    omega
  · have h := parse_magnitude x.natAbs (d - (natChars x.natAbs).length)
    have hfmt : format_integer x (some d) =
        ⟨List.replicate (d - (natChars x.natAbs).length) '0' ++ natChars x.natAbs⟩ := by
      unfold format_integer
      rw [if_neg hneg]
    rw [hfmt, h]
    congr 1
    omega

/-- C4 witness: the padding theorem instantiated at `x = 5`, `d = 3`. -/
theorem c4_format_integer_min_digits_witness :
    (format_integer 5 (some 3)).data =
        List.replicate (3 - (natChars (Int.natAbs 5)).length) '0'
          ++ natChars (Int.natAbs 5)
    ∧ 3 ≤ (format_integer 5 (some 3)).length
    ∧ parse_integer (format_integer 5 (some 3)) = some 5 :=
  c4_format_integer_min_digits 5 3 (by norm_num)

/-- Modelled from the spec: `digits_needed` / `needed_digits`, whose
implementation is in a translation unit absent from the sources.  Counts
the base-10 digits of `max_number` by repeated division; any number of at
most `max_number` fits in that many digits, and `needed_digits 0 = 1`. -/
def needed_digits (max_number : Nat) : Nat :=
  if max_number < 10 then 1 else 1 + needed_digits (max_number / 10)
termination_by max_number
decreasing_by exact Nat.div_lt_self (by omega) (by norm_num)

theorem natChars_of_ne_zero {n : Nat} (h : n ≠ 0) :
    natChars n = (Nat.digits 10 n).reverse.map digitToChar := by
  unfold natChars
  rw [if_neg h]

theorem needed_digits_eq_natChars_length (n : Nat) :
    needed_digits n = (natChars n).length := by
  induction n using Nat.strong_induction_on with
  | _ n ih =>
      rw [needed_digits]
      by_cases h : n < 10
      · rw [if_pos h]
        by_cases h0 : n = 0
        · subst h0; rfl
        · rw [natChars_of_ne_zero h0,
            Nat.digits_def' (b := 10) (by norm_num) (by omega),
            Nat.div_eq_of_lt h]
          simp
      · rw [if_neg h, ih (n / 10) (Nat.div_lt_self (by omega) (by norm_num))]
        have h10 : n / 10 ≠ 0 := (Nat.div_pos (by omega) (by norm_num)).ne'
        rw [natChars_of_ne_zero h10, natChars_of_ne_zero (show n ≠ 0 by omega),
          Nat.digits_def' (b := 10) (by norm_num) (show 0 < n by omega)]
        simp [Nat.add_comm]

/-- C5: `needed_digits m` is the base-10 digit count of `m` itself, so every
`v ≤ m` renders in at most `needed_digits m` digits; moreover
`needed_digits 0 = 1`, `needed_digits 999 = 3`, `needed_digits 1000 = 4`. -/
theorem c5_needed_digits_covers_range :
    ∀ (m v : Nat), v ≤ m →
      needed_digits m = (natChars m).length
      ∧ (natChars v).length ≤ needed_digits m
      ∧ needed_digits 0 = 1 ∧ needed_digits 999 = 3 ∧ needed_digits 1000 = 4 := by
  intro m v hv
  refine ⟨needed_digits_eq_natChars_length m, ?_, by simp [needed_digits],
    by simp [needed_digits], by simp [needed_digits]⟩
  rw [needed_digits_eq_natChars_length m]
  by_cases hv0 : v = 0
  · subst hv0
    by_cases hm0 : m = 0
    · subst hm0; exact le_refl _
    · rw [natChars_of_ne_zero hm0]
      have hne : Nat.digits 10 m ≠ [] := Nat.digits_ne_nil_iff_ne_zero.mpr hm0
      show (['0'] : List Char).length ≤ _
      simp only [List.length_cons, List.length_nil, List.length_map,
        List.length_reverse]
      cases hd : Nat.digits 10 m with
      | nil => exact absurd hd hne
      | cons a l => simp
  · have hm0 : m ≠ 0 := by omega
    rw [natChars_of_ne_zero hv0, natChars_of_ne_zero hm0]
    simp only [List.length_map, List.length_reverse]
    exact Nat.le_digits_len_le 10 v m hv

/-- C5 witness: the theorem instantiated at `m = 1000`, `v = 999`. -/
theorem c5_needed_digits_covers_range_witness :
    needed_digits 1000 = (natChars 1000).length
    ∧ (natChars 999).length ≤ needed_digits 1000
    ∧ needed_digits 0 = 1 ∧ needed_digits 999 = 3 ∧ needed_digits 1000 = 4 :=
  c5_needed_digits_covers_range 1000 999 (by norm_num)

/-- Split a character list on every occurrence of `delim`, keeping empty
segments; always returns `count delim + 1` segments. -/
def splitOnChar (delim : Char) : List Char → List (List Char)
  | [] => [[]]
  | c :: rest =>
      if c = delim then [] :: splitOnChar delim rest
      else
        match splitOnChar delim rest with
        | [] => [[c]]
        | seg :: segs => (c :: seg) :: segs

/-- Remove leading and trailing whitespace from a character list. -/
def trimChars (l : List Char) : List Char :=
  ((l.dropWhile Char.isWhitespace).reverse.dropWhile Char.isWhitespace).reverse

/-- Modelled from the spec: `split_trimmed` / `split_string_list`, whose
implementation is in a translation unit absent from the sources.  Splits on
every occurrence of the delimiter, preserving order and empty segments, and
trims leading/trailing whitespace from each segment. -/
def split_string_list (s : String) (delimiter : Char) : List String :=
  (splitOnChar delimiter s.data).map (fun seg => ⟨trimChars seg⟩)

theorem splitOnChar_ne_nil (d : Char) (l : List Char) : splitOnChar d l ≠ [] := by
  cases l with
  | nil => exact List.cons_ne_nil _ _
  | cons c rest =>
      rw [splitOnChar]
      by_cases h : c = d
      · rw [if_pos h]; exact List.cons_ne_nil _ _
      · rw [if_neg h]
        cases splitOnChar d rest <;> exact List.cons_ne_nil _ _

theorem splitOnChar_length (d : Char) :
    ∀ l : List Char, (splitOnChar d l).length = l.count d + 1 := by
  intro l
  induction l with
  | nil => rfl
  | cons c rest ih =>
      rw [splitOnChar, List.count_cons]
      by_cases h : c = d
      · rw [if_pos h, List.length_cons, ih]
        simp [h]
      · rw [if_neg h]
        have hbeq : (c == d) = false := beq_false_of_ne h
        cases hs : splitOnChar d rest with
        | nil => exact absurd hs (splitOnChar_ne_nil d rest)
        | cons seg segs =>
            rw [hs] at ih
            simp only [List.length_cons] at ih ⊢
            simp [hbeq, ih]

theorem dropWhile_head_false {p : Char → Bool} :
    ∀ {l c cs}, List.dropWhile p l = c :: cs → p c = false := by
  intro l
  induction l with
  | nil => intro c cs h; exact absurd h (by simp)
  | cons a l ih =>
      intro c cs h
      rw [List.dropWhile_cons] at h
      by_cases ha : p a
      · rw [if_pos ha] at h
        exact ih h
      · rw [if_neg ha] at h
        cases h
        exact Bool.of_not_eq_true ha

theorem dropWhile_of_head_false {p : Char → Bool} {c : Char} {cs : List Char}
    (h : p c = false) : List.dropWhile p (c :: cs) = c :: cs := by
  rw [List.dropWhile_cons, if_neg (by simp [h])]

theorem dropWhile_dropWhile (p : Char → Bool) (l : List Char) :
    List.dropWhile p (List.dropWhile p l) = List.dropWhile p l := by
  cases hd : List.dropWhile p l with
  | nil => rfl
  | cons c cs => exact dropWhile_of_head_false (dropWhile_head_false hd)

theorem trimChars_idem (l : List Char) : trimChars (trimChars l) = trimChars l := by
  set ws := Char.isWhitespace
  set a := List.dropWhile ws l with ha
  set b := List.dropWhile ws a.reverse with hb
  have htrim : trimChars l = b.reverse := rfl
  have claim2 : List.dropWhile ws (trimChars l).reverse = (trimChars l).reverse := by
    rw [htrim, List.reverse_reverse, hb]
    exact dropWhile_dropWhile ws a.reverse
  have claim1 : List.dropWhile ws (trimChars l) = trimChars l := by
    cases hbn : b with
    | nil => rw [htrim, hbn]; rfl
    | cons x xs =>
        obtain ⟨t, ht⟩ : ∃ t, t ++ b = a.reverse := List.dropWhile_suffix ws
        have hae : a = b.reverse ++ t.reverse := by
          have := congrArg List.reverse ht
          rw [List.reverse_append, List.reverse_reverse] at this
          exact this.symm
        cases hbr : b.reverse with
        | nil =>
            have : b = [] := by
              have := congrArg List.reverse hbr
              rw [List.reverse_reverse] at this
              exact this
            rw [htrim, this]
            rfl
        | cons y ys =>
            have hhead : ws y = false := by
              have hay : a = y :: (ys ++ t.reverse) := by
                rw [hae, hbr]; rfl
              exact dropWhile_head_false (ha.symm.trans hay)
            rw [htrim, hbr]
            exact dropWhile_of_head_false hhead
  show ((List.dropWhile ws (List.dropWhile ws (trimChars l)).reverse)).reverse = trimChars l
  rw [claim1, claim2, List.reverse_reverse]

/-- C6: `split_string_list` returns exactly `count delimiter + 1` segments,
each one trimmed (trimming again changes nothing), and on the concrete
inputs `""`, `","` and `"a, b ,c"` produces `[""]`, `["", ""]` and
`["a","b","c"]`. -/
theorem c6_split_string_list_segments :
    ∀ (s : String) (c : Char),
      (split_string_list s c).length = s.data.count c + 1
      ∧ (∀ t ∈ split_string_list s c, trimChars t.data = t.data)
      ∧ split_string_list "" ',' = [""]
      ∧ split_string_list "," ',' = ["", ""]
      ∧ split_string_list "a, b ,c" ',' = ["a", "b", "c"] := by
  intro s c
  refine ⟨?_, ?_, by decide, by decide, by decide⟩
  · unfold split_string_list
    rw [List.length_map]
    exact splitOnChar_length c s.data
  · intro t ht
    unfold split_string_list at ht
    obtain ⟨seg, hseg, rfl⟩ := List.mem_map.mp ht
    exact trimChars_idem seg

/-- C6 witness: the theorem instantiated at `s = "a, b ,c"` and the segment
`"b"` of its output. -/
theorem c6_split_string_list_segments_witness :
    (split_string_list "a, b ,c" ',').length = ("a, b ,c" : String).data.count ',' + 1
    ∧ trimChars ("b" : String).data = ("b" : String).data :=
  ⟨(c6_split_string_list_segments "a, b ,c" ',').1,
   (c6_split_string_list_segments "a, b ,c" ',').2.1 "b" (by decide)⟩

/-- Greedy line packing: extend the current line with `delim`-joined tokens
while the result stays within `width`, otherwise emit the line and start a
new one with the next token. -/
def greedyPack (width : Nat) (d : Char) :
    List Char → List (List Char) → List (List Char)
  | line, [] => [line]
  | line, t :: ts =>
      if line.length + 1 + t.length ≤ width
      then greedyPack width d (line ++ d :: t) ts
      else line :: greedyPack width d t ts

/-- Modelled from the spec: `wrap_text` / `break_text_into_lines`, whose
implementation is in a translation unit absent from the sources.  Splits the
text into delimiter-separated tokens and greedily packs them into lines of
at most `width` characters, breaking only at delimiter boundaries; a token
longer than `width` stands alone as an over-length line. -/
def break_text_into_lines (s : String) (width : Nat) (d : Char) : List String :=
  match splitOnChar d s.data with
  | [] => []
  | t :: ts => (greedyPack width d t ts).map (fun l => ⟨l⟩)

theorem greedyPack_mem (w : Nat) (d : Char) :
    ∀ (ts : List (List Char)) (line x : List Char),
      x ∈ greedyPack w d line ts → x.length ≤ w ∨ x = line ∨ x ∈ ts := by
  intro ts
  induction ts with
  | nil =>
      intro line x hx
      rw [greedyPack] at hx
      rcases List.mem_singleton.mp hx with rfl
      exact Or.inr (Or.inl rfl)
  | cons t ts ih =>
      intro line x hx
      rw [greedyPack] at hx
      by_cases hfit : line.length + 1 + t.length ≤ w
      · rw [if_pos hfit] at hx
        rcases ih (line ++ d :: t) x hx with h | h | h
        · exact Or.inl h
        · subst h
          refine Or.inl ?_
          rw [List.length_append, List.length_cons]
          omega
        · exact Or.inr (Or.inr (List.mem_cons_of_mem t h))
      · rw [if_neg hfit] at hx
        rcases List.mem_cons.mp hx with rfl | hx'
        · exact Or.inr (Or.inl rfl)
        · rcases ih t x hx' with h | h | h
          · exact Or.inl h
          · exact Or.inr (Or.inr (h ▸ List.mem_cons_self t ts))
          · exact Or.inr (Or.inr (List.mem_cons_of_mem t h))

theorem splitOnChar_no_delim (d : Char) :
    ∀ l : List Char, d ∉ l → splitOnChar d l = [l] := by
  intro l
  induction l with
  | nil => intro _; rfl
  | cons c rest ih =>
      intro hd
      have hc : c ≠ d := fun h => hd (h ▸ List.mem_cons_self c rest)
      have hrest : d ∉ rest := fun h => hd (List.mem_cons_of_mem c h)
      rw [splitOnChar, if_neg hc, ih hrest]

theorem splitOnChar_append_delim (d : Char) :
    ∀ (l r : List Char),
      splitOnChar d (l ++ d :: r) = splitOnChar d l ++ splitOnChar d r := by
  intro l r
  induction l with
  | nil =>
      rw [List.nil_append]
      show splitOnChar d (d :: r) = [[]] ++ splitOnChar d r
      rw [splitOnChar, if_pos rfl]
      rfl
  | cons c l ih =>
      rw [List.cons_append, splitOnChar, splitOnChar]
      by_cases hc : c = d
      · rw [if_pos hc, if_pos hc, ih, List.cons_append]
      · rw [if_neg hc, if_neg hc, ih]
        cases hs : splitOnChar d l with
        | nil => exact absurd hs (splitOnChar_ne_nil d l)
        | cons seg segs => rfl

theorem splitOnChar_segments_no_delim (d : Char) :
    ∀ (l : List Char), ∀ seg ∈ splitOnChar d l, d ∉ seg := by
  intro l
  induction l with
  | nil =>
      intro seg hseg
      rcases List.mem_singleton.mp hseg with rfl
      exact List.not_mem_nil d
  | cons c rest ih =>
      intro seg hseg
      rw [splitOnChar] at hseg
      by_cases hc : c = d
      · rw [if_pos hc] at hseg
        rcases List.mem_cons.mp hseg with rfl | h
        · exact List.not_mem_nil d
        · exact ih seg h
      · rw [if_neg hc] at hseg
        cases hs : splitOnChar d rest with
        | nil => exact absurd hs (splitOnChar_ne_nil d rest)
        | cons s0 ss =>
            rw [hs] at hseg
            rcases List.mem_cons.mp hseg with rfl | h
            · intro hmem
              rcases List.mem_cons.mp hmem with h1 | h1
              · exact hc h1.symm
              · exact ih s0 (hs ▸ List.mem_cons_self s0 ss) h1
            · exact ih seg (hs ▸ List.mem_cons_of_mem s0 h)

theorem greedyPack_join (w : Nat) (d : Char) :
    ∀ (ts : List (List Char)) (line : List Char),
      (∀ t ∈ ts, d ∉ t) →
      ((greedyPack w d line ts).map (splitOnChar d)).flatten
        = splitOnChar d line ++ ts := by
  intro ts
  induction ts with
  | nil =>
      intro line _
      rw [greedyPack]
      simp
  | cons t ts ih =>
      intro line hts
      have ht : d ∉ t := hts t (List.mem_cons_self t ts)
      have hts' : ∀ u ∈ ts, d ∉ u := fun u hu => hts u (List.mem_cons_of_mem t hu)
      rw [greedyPack]
      by_cases hfit : line.length + 1 + t.length ≤ w
      · rw [if_pos hfit, ih (line ++ d :: t) hts',
          splitOnChar_append_delim, splitOnChar_no_delim d t ht,
          List.append_assoc]
        rfl
      · rw [if_neg hfit, List.map_cons, List.flatten_cons,
          ih t hts', splitOnChar_no_delim d t ht]
        rfl

/-- C7: every output line of `break_text_into_lines` either fits in `width`
characters or is a single (over-length) token of the input; splitting the
output lines back on the delimiter and concatenating recovers exactly the
token sequence of the input (order preserved, no token split mid-word, no
trailing delimiter); and `break_text_into_lines "one two three" 7 ' '`
equals `["one two", "three"]`. -/
theorem c7_break_text_into_lines_greedy :
    ∀ (s : String) (w : Nat) (d : Char),
      (∀ line ∈ break_text_into_lines s w d,
        line.length ≤ w ∨ line.data ∈ splitOnChar d s.data)
      ∧ ((break_text_into_lines s w d).map
            (fun line => splitOnChar d line.data)).flatten = splitOnChar d s.data
      ∧ break_text_into_lines "one two three" 7 ' ' = ["one two", "three"] := by
  intro s w d
  refine ⟨?_, ?_, by decide⟩
  · intro line hline
    unfold break_text_into_lines at hline
    cases hs : splitOnChar d s.data with
    | nil => exact absurd hs (splitOnChar_ne_nil d s.data)
    | cons t ts =>
        rw [hs] at hline
        obtain ⟨l, hl, rfl⟩ := List.mem_map.mp hline
        rcases greedyPack_mem w d ts t l hl with h | h | h
        · exact Or.inl h
        · refine Or.inr ?_
          show l ∈ t :: ts
          rw [h]
          exact List.mem_cons_self t ts
        · refine Or.inr ?_
          show l ∈ t :: ts
          exact List.mem_cons_of_mem t h
  · unfold break_text_into_lines
    cases hs : splitOnChar d s.data with
    | nil => exact absurd hs (splitOnChar_ne_nil d s.data)
    | cons t ts =>
        rw [List.map_map]
        have hjoin := greedyPack_join w d ts t
          (fun u hu => splitOnChar_segments_no_delim d s.data u
            (hs ▸ List.mem_cons_of_mem t hu))
        rw [splitOnChar_no_delim d t
          (splitOnChar_segments_no_delim d s.data t (hs ▸ List.mem_cons_self t ts))]
          at hjoin
        exact hjoin

/-- C7 witness: the theorem instantiated on `"one two three"` with width 7
and the output line `"one two"`. -/
theorem c7_break_text_into_lines_greedy_witness :
    (("one two" : String).length ≤ 7
      ∨ ("one two" : String).data ∈ splitOnChar ' ' ("one two three" : String).data)
    ∧ ((break_text_into_lines "one two three" 7 ' ').map
        (fun line => splitOnChar ' ' line.data)).flatten
        = splitOnChar ' ' ("one two three" : String).data :=
  ⟨(c7_break_text_into_lines_greedy "one two three" 7 ' ').1 "one two" (by decide),
   (c7_break_text_into_lines_greedy "one two three" 7 ' ').2.1⟩

/-- Embeds `numbers::invalid_unsigned_int`, the largest representable
`unsigned int`, used as the "no match" length sentinel. -/
def invalid_unsigned_int : Nat := 4294967295

/-- Value of a big-endian run of decimal digit characters. -/
def digitsVal (ds : List Char) : Nat :=
  ds.foldl (fun a c => a * 10 + (c.toNat - 48)) 0

/-- Modelled from the spec: `read_integer_at` / `get_integer_at_position`,
whose implementation is in a translation unit absent from the sources.
Parses a signed run of decimal digits beginning exactly at `position` and
returns the value together with the number of characters consumed; if no
digit run begins there (including `position` out of range), returns the
non-throwing sentinel pair `(-1, invalid_unsigned_int)`. -/
def get_integer_at_position (name : String) (position : Nat) : Int × Nat :=
  match name.data.drop position with
  | [] => (-1, invalid_unsigned_int)
  | c :: rest =>
      if c = '-' then
        if rest.takeWhile Char.isDigit = [] then (-1, invalid_unsigned_int)
        else (-(digitsVal (rest.takeWhile Char.isDigit) : Int),
              (rest.takeWhile Char.isDigit).length + 1)
      else
        if (c :: rest).takeWhile Char.isDigit = [] then (-1, invalid_unsigned_int)
        else ((digitsVal ((c :: rest).takeWhile Char.isDigit) : Int),
              ((c :: rest).takeWhile Char.isDigit).length)

theorem get_integer_at_position_nil {name : String} {position : Nat}
    (h : name.data.drop position = []) :
    get_integer_at_position name position = (-1, invalid_unsigned_int) := by
  unfold get_integer_at_position
  rw [h]

theorem get_integer_at_position_cons {name : String} {position : Nat}
    {c : Char} {rest : List Char} (h : name.data.drop position = c :: rest) :
    get_integer_at_position name position =
      if c = '-' then
        if rest.takeWhile Char.isDigit = [] then (-1, invalid_unsigned_int)
        else (-(digitsVal (rest.takeWhile Char.isDigit) : Int),
              (rest.takeWhile Char.isDigit).length + 1)
      else
        if (c :: rest).takeWhile Char.isDigit = [] then (-1, invalid_unsigned_int)
        else ((digitsVal ((c :: rest).takeWhile Char.isDigit) : Int),
              ((c :: rest).takeWhile Char.isDigit).length) := by
  unfold get_integer_at_position
  rw [h]

theorem parseNatAux_all_digits :
    ∀ (ds : List Char), (∀ c ∈ ds, c.isDigit = true) →
      ∀ acc, parseNatAux ds acc =
        some (ds.foldl (fun a c => a * 10 + (c.toNat - 48)) acc) := by
  intro ds
  induction ds with
  | nil => intro _ acc; rfl
  | cons c cs ih =>
      intro hd acc
      have hc : c.isDigit = true := hd c (List.mem_cons_self c cs)
      have hrange : 48 ≤ c.toNat ∧ c.toNat ≤ 57 := by
        rw [Char.isDigit] at hc
        have h1 := ((Bool.and_eq_true _ _).mp hc).1
        have h2 := ((Bool.and_eq_true _ _).mp hc).2
        simp only [decide_eq_true_eq] at h1 h2
        exact ⟨h1, h2⟩
      rw [parseNatAux, charToDigit, if_pos hrange, List.foldl_cons]
      exact ih (fun e he => hd e (List.mem_cons_of_mem c he)) _

theorem takeWhile_all {p : Char → Bool} :
    ∀ l : List Char, ∀ c ∈ l.takeWhile p, p c = true := by
  intro l
  induction l with
  | nil => intro c hc; exact absurd hc (List.not_mem_nil c)
  | cons a l ih =>
      intro c hc
      rw [List.takeWhile_cons] at hc
      by_cases ha : p a
      · rw [if_pos ha] at hc
        rcases List.mem_cons.mp hc with rfl | h
        · exact ha
        · exact ih c h
      · rw [if_neg ha] at hc
        exact absurd hc (List.not_mem_nil c)

theorem takeWhile_length_le {p : Char → Bool} :
    ∀ l : List Char, (l.takeWhile p).length ≤ l.length := by
  intro l
  induction l with
  | nil => exact Nat.le_refl 0
  | cons a l ih =>
      rw [List.takeWhile_cons]
      by_cases ha : p a
      · rw [if_pos ha, List.length_cons, List.length_cons]
        omega
      · rw [if_neg ha]
        simp

theorem take_takeWhile_length {p : Char → Bool} :
    ∀ l : List Char, l.take (l.takeWhile p).length = l.takeWhile p := by
  intro l
  induction l with
  | nil => rfl
  | cons a l ih =>
      rw [List.takeWhile_cons]
      by_cases ha : p a
      · rw [if_pos ha, List.length_cons, List.take_succ_cons, ih]
      · rw [if_neg ha]
        rfl

theorem digit_run_parses {ds : List Char} (hne : ds ≠ [])
    (hd : ∀ c ∈ ds, c.isDigit = true) :
    parse_integer_chars ds = some ((digitsVal ds : Nat) : Int) := by
  cases ds with
  | nil => exact absurd rfl hne
  | cons c cs =>
      have hc : c.isDigit = true := hd c (List.mem_cons_self c cs)
      have hsign : c ≠ '-' ∧ c ≠ '+' := by
        constructor <;> (intro h; subst h; exact absurd hc (by decide))
      rw [parse_integer_chars, if_neg hsign.1, if_neg hsign.2,
        parseNatAux_all_digits (c :: cs) hd 0]
      rfl

/-- C8: when `get_integer_at_position` reports a real length (not the
sentinel), that length is positive, bounded by the remaining string length
(hence distinct from the sentinel for any real string), and the consumed
characters re-parse via `parse_integer` to exactly the returned value; when
`position` is out of range the result is the non-throwing sentinel pair
`(-1, invalid_unsigned_int)`; concretely
`get_integer_at_position "abc123def" 3 = (123, 3)` and
`get_integer_at_position "abc" 0 = (-1, invalid_unsigned_int)`. -/
theorem c8_get_integer_at_position_contract :
    ∀ (name : String) (position : Nat),
      ((get_integer_at_position name position).2 ≠ invalid_unsigned_int →
        0 < (get_integer_at_position name position).2
        ∧ (get_integer_at_position name position).2 ≤ name.length - position
        ∧ parse_integer
            ⟨(name.data.drop position).take (get_integer_at_position name position).2⟩
            = some (get_integer_at_position name position).1)
      ∧ (name.length ≤ position →
          get_integer_at_position name position = (-1, invalid_unsigned_int))
      ∧ get_integer_at_position "abc123def" 3 = (123, 3)
      ∧ get_integer_at_position "abc" 0 = (-1, invalid_unsigned_int) := by
  intro name position
  refine ⟨?_, ?_, by decide, by decide⟩
  · intro hne
    cases hdrop : name.data.drop position with
    | nil =>
        rw [get_integer_at_position_nil hdrop] at hne
        exact absurd rfl hne
    | cons c rest =>
        have hlen2 : rest.length + 1 = name.data.length - position := by
          have h2 := List.length_drop position name.data
          rw [hdrop, List.length_cons] at h2
          exact h2
        have hnames : name.length = name.data.length := rfl
        rw [get_integer_at_position_cons hdrop] at hne ⊢
        by_cases hc : c = '-'
        · rw [if_pos hc] at hne ⊢
          by_cases hds : rest.takeWhile Char.isDigit = []
          · rw [if_pos hds] at hne
            exact absurd rfl hne
          · rw [if_neg hds] at hne ⊢
            refine ⟨Nat.succ_pos _, ?_, ?_⟩
            · show (rest.takeWhile Char.isDigit).length + 1 ≤ name.length - position
              have h1 := takeWhile_length_le (p := Char.isDigit) rest
              omega
            · subst hc
              show parse_integer_chars
                  (('-' :: rest).take ((rest.takeWhile Char.isDigit).length + 1))
                  = some (-(digitsVal (rest.takeWhile Char.isDigit) : Int))
              rw [List.take_succ_cons, take_takeWhile_length,
                parse_integer_chars, if_pos rfl, if_neg hds,
                parseNatAux_all_digits _ (takeWhile_all rest) 0]
              rfl
        · rw [if_neg hc] at hne ⊢
          by_cases hds : (c :: rest).takeWhile Char.isDigit = []
          · rw [if_pos hds] at hne
            exact absurd rfl hne
          · rw [if_neg hds] at hne ⊢
            refine ⟨?_, ?_, ?_⟩
            · exact List.length_pos.mpr hds
            · show ((c :: rest).takeWhile Char.isDigit).length ≤ name.length - position
              have h1 := takeWhile_length_le (p := Char.isDigit) (c :: rest)
              rw [List.length_cons] at h1
              omega
            · show parse_integer_chars
                  ((c :: rest).take (((c :: rest).takeWhile Char.isDigit).length))
                  = some ((digitsVal ((c :: rest).takeWhile Char.isDigit) : Nat) : Int)
              rw [take_takeWhile_length]
              exact digit_run_parses hds (takeWhile_all (c :: rest))
  · intro hlen
    exact get_integer_at_position_nil (List.drop_eq_nil_iff.mpr hlen)

/-- C8 witness: the contract instantiated at `("abc123def", 3)` for the
match case and at `("", 0)` for the out-of-range case. -/
theorem c8_get_integer_at_position_contract_witness :
    (0 < (get_integer_at_position "abc123def" 3).2
      ∧ (get_integer_at_position "abc123def" 3).2 ≤ ("abc123def" : String).length - 3
      ∧ parse_integer
          ⟨(("abc123def" : String).data.drop 3).take
              (get_integer_at_position "abc123def" 3).2⟩
          = some (get_integer_at_position "abc123def" 3).1)
    ∧ get_integer_at_position "" 0 = (-1, invalid_unsigned_int) :=
  ⟨(c8_get_integer_at_position_contract "abc123def" 3).1 (by decide),
   (c8_get_integer_at_position_contract "" 0).2.1 (by decide)⟩

/-- Lifecycle events of `TrilinosTools` handles: construction from process
arguments, copy construction from an existing handle, destruction. -/
inductive TEvent where
  | createOwning : TEvent
  | createAlias : Nat → TEvent
  | destroy : Nat → TEvent

/-- Process-wide state for the `TrilinosTools` lifecycle model: whether the
distributed runtime has been initialized, how many times it has been
finalized, the live handles as `(id, owns_mpi)` pairs, and a fresh-id
counter. -/
structure TState where
  runtime_initialized : Bool
  finalize_count : Nat
  handles : List (Nat × Bool)
  next_id : Nat

/-- Initial process state: runtime not initialized, never finalized, no
live handles. -/
def initState : TState := ⟨false, 0, [], 0⟩

/-- Modelled from the spec: the `TrilinosTools` constructor, copy
constructor and destructor, whose implementations are in a translation unit
absent from the sources.  Construction from process arguments initializes
the runtime and sets `owns_mpi = true`, failing (no handle created) if the
runtime is already active; copy construction of a live handle sets
`owns_mpi = false`; destruction removes the handle and finalizes the
runtime exactly when the destroyed handle owns it. -/
def step (s : TState) (e : TEvent) : TState :=
  match e with
  | TEvent.createOwning =>
      if s.runtime_initialized then s
      else ⟨true, s.finalize_count, (s.next_id, true) :: s.handles, s.next_id + 1⟩
  | TEvent.createAlias src =>
      if s.handles.any (fun h => h.1 == src) then
        ⟨s.runtime_initialized, s.finalize_count,
         (s.next_id, false) :: s.handles, s.next_id + 1⟩
      else s
  | TEvent.destroy hid =>
      match s.handles.find? (fun p => p.1 == hid) with
      | some p =>
          ⟨s.runtime_initialized,
           if p.2 then s.finalize_count + 1 else s.finalize_count,
           s.handles.filter (fun q => !(q.1 == hid)),
           s.next_id⟩
      | none => s

/-- Run a whole event trace from the initial process state. -/
def run (events : List TEvent) : TState := events.foldl step initState

/-- Number of live handles with `owns_mpi = true`. -/
def ownersCount (s : TState) : Nat := s.handles.countP (fun h => h.2)

/-- Inductive invariant of the lifecycle model. -/
def Inv (s : TState) : Prop :=
  ownersCount s ≤ 1
  ∧ (ownersCount s = 1 → s.runtime_initialized = true)
  ∧ s.finalize_count ≤ 1
  ∧ (s.finalize_count = 1 ↔ (s.runtime_initialized = true ∧ ownersCount s = 0))
  ∧ (∀ q ∈ s.handles, q.1 < s.next_id)
  ∧ (s.handles.map Prod.fst).Nodup

theorem countP_split {α : Type} (q pr : α → Bool) (l : List α) :
    l.countP q =
      l.countP (fun a => q a && pr a) + l.countP (fun a => q a && !pr a) := by
  induction l with
  | nil => rfl
  | cons a l ih =>
      rw [List.countP_cons, List.countP_cons, List.countP_cons, ih]
      by_cases hq : q a
      · by_cases hp : pr a <;> simp [hq, hp] <;> omega
      · simp [hq]

theorem nodup_fst_inj {l : List (Nat × Bool)} (h : (l.map Prod.fst).Nodup) :
    ∀ {a b : Nat × Bool}, a ∈ l → b ∈ l → a.1 = b.1 → a = b := by
  induction l with
  | nil => intro a b ha _ _; exact absurd ha (List.not_mem_nil a)
  | cons x xs ih =>
      rw [List.map_cons, List.nodup_cons] at h
      intro a b ha hb hab
      rcases List.mem_cons.mp ha with rfl | ha' <;>
        rcases List.mem_cons.mp hb with rfl | hb'
      · rfl
      · exact absurd (List.mem_map.mpr ⟨b, hb', hab.symm⟩) h.1
      · exact absurd (List.mem_map.mpr ⟨a, ha', hab⟩) h.1
      · exact ih h.2 ha' hb' hab

theorem step_preserves_Inv {s : TState} (h : Inv s) (e : TEvent) :
    Inv (step s e) := by
  obtain ⟨h1, h2, h3, h4, h5, h6⟩ := h
  cases e with
  | createOwning =>
      rw [step]
      by_cases hinit : s.runtime_initialized
      · rw [if_pos hinit]
        exact ⟨h1, h2, h3, h4, h5, h6⟩
      · rw [if_neg hinit]
        have howners0 : ownersCount s = 0 := by
          rcases Nat.lt_or_ge (ownersCount s) 1 with h' | h'
          · omega
          · have : ownersCount s = 1 := by omega
            exact absurd (h2 this) hinit
        have hfin0 : s.finalize_count = 0 := by
          rcases Nat.lt_or_ge s.finalize_count 1 with h' | h'
          · omega
          · have h1' : s.finalize_count = 1 := by omega
            exact absurd (h4.mp h1').1 hinit
        refine ⟨?_, ?_, by simpa using h3, ?_, ?_, ?_⟩
        · show ((s.next_id, true) :: s.handles).countP (fun h => h.2) ≤ 1
          rw [List.countP_cons]
          have : s.handles.countP (fun h => h.2) = 0 := howners0
          simp [this]
        · intro _; rfl
        · constructor
          · intro hf
            exact absurd (hfin0 ▸ hf) (by decide)
          · intro ⟨_, hz⟩
            exfalso
            have : ((s.next_id, true) :: s.handles).countP (fun h => h.2)
                = s.handles.countP (fun h => h.2) + 1 := by
              rw [List.countP_cons]; simp
            rw [show ownersCount (⟨true, s.finalize_count,
              (s.next_id, true) :: s.handles, s.next_id + 1⟩ : TState)
                = ((s.next_id, true) :: s.handles).countP (fun h => h.2) from rfl]
              at hz
            omega
        · intro q hq
          rcases List.mem_cons.mp hq with rfl | hq'
          · exact Nat.lt_succ_self _
          · exact Nat.lt_succ_of_lt (h5 q hq')
        · rw [List.map_cons, List.nodup_cons]
          refine ⟨?_, h6⟩
          intro hmem
          obtain ⟨q, hq, hq1⟩ := List.mem_map.mp hmem
          exact absurd (hq1 ▸ h5 q hq) (Nat.lt_irrefl _)
  | createAlias src =>
      rw [step]
      by_cases hany : s.handles.any (fun h => h.1 == src)
      · rw [if_pos hany]
        have howners : ((s.next_id, false) :: s.handles).countP (fun h => h.2)
            = s.handles.countP (fun h => h.2) := by
          rw [List.countP_cons]; simp
        refine ⟨?_, ?_, h3, ?_, ?_, ?_⟩
        · show ((s.next_id, false) :: s.handles).countP (fun h => h.2) ≤ 1
          rw [howners]; exact h1
        · intro hone
          exact h2 (by rw [show ownersCount s
              = s.handles.countP (fun h => h.2) from rfl, ← howners]; exact hone)
        · rw [show ownersCount (⟨s.runtime_initialized, s.finalize_count,
            (s.next_id, false) :: s.handles, s.next_id + 1⟩ : TState)
              = ((s.next_id, false) :: s.handles).countP (fun h => h.2) from rfl,
            howners]
          exact h4
        · intro q hq
          rcases List.mem_cons.mp hq with rfl | hq'
          · exact Nat.lt_succ_self _
          · exact Nat.lt_succ_of_lt (h5 q hq')
        · rw [List.map_cons, List.nodup_cons]
          refine ⟨?_, h6⟩
          intro hmem
          obtain ⟨q, hq, hq1⟩ := List.mem_map.mp hmem
          exact absurd (hq1 ▸ h5 q hq) (Nat.lt_irrefl _)
      · rw [if_neg hany]
        exact ⟨h1, h2, h3, h4, h5, h6⟩
  | destroy hid =>
      rw [step]
      cases hfind : s.handles.find? (fun p => p.1 == hid) with
      | none => exact ⟨h1, h2, h3, h4, h5, h6⟩
      | some p =>
          have hpmem : p ∈ s.handles := List.mem_of_find?_eq_some hfind
          have hpid : p.1 = hid := by
            have := List.find?_some hfind
            exact beq_iff_eq.mp this
          have hsplit := countP_split (fun h : Nat × Bool => h.2)
            (fun h : Nat × Bool => h.1 == hid) s.handles
          have hfilter : (s.handles.filter (fun q => !(q.1 == hid))).countP
              (fun h => h.2)
              = s.handles.countP (fun a => a.2 && !(a.1 == hid)) := by
            rw [List.countP_filter]
          have hnodup' : ((s.handles.filter
              (fun q => !(q.1 == hid))).map Prod.fst).Nodup :=
            ((List.filter_sublist s.handles).map Prod.fst).nodup h6
          have hbound' : ∀ q ∈ s.handles.filter (fun q => !(q.1 == hid)),
              q.1 < s.next_id :=
            fun q hq => h5 q (List.mem_of_mem_filter hq)
          show Inv ⟨s.runtime_initialized,
            if p.2 then s.finalize_count + 1 else s.finalize_count,
            s.handles.filter (fun q => !(q.1 == hid)), s.next_id⟩
          by_cases hp2 : p.2
          · have hpos : 0 < s.handles.countP (fun a => a.2 && (a.1 == hid)) :=
              List.countP_pos_iff.mpr ⟨p, hpmem, by simp [hp2, hpid]⟩
            have hopos : 0 < ownersCount s :=
              List.countP_pos_iff.mpr ⟨p, hpmem, by simp [hp2]⟩
            have hone : ownersCount s = 1 := by omega
            have hinit : s.runtime_initialized = true := h2 hone
            have hfin0 : s.finalize_count = 0 := by
              rcases Nat.lt_or_ge s.finalize_count 1 with h' | h'
              · omega
              · have h1' : s.finalize_count = 1 := by omega
                have := (h4.mp h1').2
                omega
            have hnew0 : (s.handles.filter (fun q => !(q.1 == hid))).countP
                (fun h => h.2) = 0 := by
              rw [hfilter]
              have : ownersCount s = s.handles.countP (fun h => h.2) := rfl
              omega
            rw [if_pos hp2]
            refine ⟨?_, ?_, ?_, ?_, hbound', hnodup'⟩
            · show (s.handles.filter (fun q => !(q.1 == hid))).countP
                (fun h => h.2) ≤ 1
              omega
            · intro h'
              exact hinit
            · show s.finalize_count + 1 ≤ 1
              omega
            · constructor
              · intro _
                exact ⟨hinit, hnew0⟩
              · intro _
                show s.finalize_count + 1 = 1
                omega
          · have hzero : s.handles.countP (fun a => a.2 && (a.1 == hid)) = 0 := by
              rw [List.countP_eq_zero]
              intro a ha hcontra
              have ha2 : a.2 = true := by
                rcases Bool.and_eq_true _ _ |>.mp hcontra with ⟨x, _⟩
                exact x
              have haid : a.1 = hid := by
                rcases Bool.and_eq_true _ _ |>.mp hcontra with ⟨_, y⟩
                exact beq_iff_eq.mp y
              have : a = p := nodup_fst_inj h6 ha hpmem (by rw [haid, hpid])
              rw [this] at ha2
              exact absurd ha2 (by simpa using hp2)
            have howners : (s.handles.filter (fun q => !(q.1 == hid))).countP
                (fun h => h.2) = ownersCount s := by
              rw [hfilter]
              have : ownersCount s = s.handles.countP (fun h => h.2) := rfl
              omega
            rw [if_neg hp2]
            refine ⟨?_, ?_, h3, ?_, hbound', hnodup'⟩
            · show (s.handles.filter (fun q => !(q.1 == hid))).countP
                (fun h => h.2) ≤ 1
              omega
            · intro h'
              have h'' : (s.handles.filter (fun q => !(q.1 == hid))).countP
                  (fun h => h.2) = 1 := h'
              exact h2 (by omega)
            · show s.finalize_count = 1 ↔ (s.runtime_initialized = true ∧
                (s.handles.filter (fun q => !(q.1 == hid))).countP
                  (fun h => h.2) = 0)
              rw [show (s.handles.filter (fun q => !(q.1 == hid))).countP
                (fun h => h.2) = ownersCount s from howners]
              exact h4

theorem Inv_foldl :
    ∀ (events : List TEvent) (s : TState), Inv s → Inv (events.foldl step s) := by
  intro events
  induction events with
  | nil => intro s hs; exact hs
  | cons e es ih =>
      intro s hs
      exact ih (step s e) (step_preserves_Inv hs e)

theorem Inv_run (events : List TEvent) : Inv (run events) := by
  have hinit : Inv initState := by
    refine ⟨by decide, by decide, by decide, ?_, ?_, by decide⟩
    · constructor
      · intro h; exact absurd h (by decide)
      · intro ⟨h, _⟩; exact absurd h (by decide)
    · intro q hq; exact absurd hq (List.not_mem_nil q)
  exact Inv_foldl events initState hinit

theorem step_flag_immutable {s : TState} (hinv : Inv s) (e : TEvent)
    {id : Nat} {b b' : Bool} (h1 : (id, b) ∈ s.handles)
    (h2 : (id, b') ∈ (step s e).handles) : b' = b := by
  obtain ⟨-, -, -, -, hbound, hnodup⟩ := hinv
  have hsame : ∀ {l : List (Nat × Bool)}, (id, b) ∈ l → (id, b') ∈ l →
      (l.map Prod.fst).Nodup → b' = b := by
    intro l ha hb hn
    have := nodup_fst_inj hn hb ha rfl
    exact (Prod.mk.injEq _ _ _ _).mp this |>.2
  cases e with
  | createOwning =>
      rw [step] at h2
      by_cases hinit : s.runtime_initialized
      · rw [if_pos hinit] at h2
        exact hsame h1 h2 hnodup
      · rw [if_neg hinit] at h2
        rcases List.mem_cons.mp h2 with heq | h2'
        · have hid_eq : id = s.next_id := ((Prod.mk.injEq _ _ _ _).mp heq).1
          exact absurd (hid_eq ▸ hbound _ h1) (Nat.lt_irrefl _)
        · exact hsame h1 h2' hnodup
  | createAlias src =>
      rw [step] at h2
      by_cases hany : s.handles.any (fun h => h.1 == src)
      · rw [if_pos hany] at h2
        rcases List.mem_cons.mp h2 with heq | h2'
        · have hid_eq : id = s.next_id := ((Prod.mk.injEq _ _ _ _).mp heq).1
          exact absurd (hid_eq ▸ hbound _ h1) (Nat.lt_irrefl _)
        · exact hsame h1 h2' hnodup
      · rw [if_neg hany] at h2
        exact hsame h1 h2 hnodup
  | destroy hid =>
      rw [step] at h2
      cases hfind : s.handles.find? (fun p => p.1 == hid) with
      | none =>
          rw [hfind] at h2
          exact hsame h1 h2 hnodup
      | some p =>
          rw [hfind] at h2
          exact hsame h1 (List.mem_of_mem_filter h2) hnodup

/-- C1: in every event trace of the lifecycle model, at most one live
handle has `owns_mpi = true`; the runtime is finalized at most once;
it is finalized (exactly once) precisely when it was initialized and the
owning handle has been destroyed; and no event ever changes the ownership
flag of an existing handle. -/
theorem c1_single_owner_finalize_once :
    ∀ events : List TEvent,
      ownersCount (run events) ≤ 1
      ∧ (run events).finalize_count ≤ 1
      ∧ ((run events).finalize_count = 1 ↔
          ((run events).runtime_initialized = true
            ∧ ownersCount (run events) = 0))
      ∧ (∀ (e : TEvent) (id : Nat) (b b' : Bool),
          (id, b) ∈ (run events).handles →
          (id, b') ∈ (step (run events) e).handles → b' = b) := by
  intro events
  obtain ⟨h1, h2, h3, h4, h5, h6⟩ := Inv_run events
  exact ⟨h1, h3, h4, fun e id b b' ha hb =>
    step_flag_immutable (Inv_run events) e ha hb⟩

/-- C1 witness: the theorem instantiated on the trace "create the owner,
alias it, destroy the alias, destroy the owner", plus the flag-immutability
conjunct applied to the owner's handle across an alias creation. -/
theorem c1_single_owner_finalize_once_witness :
    ownersCount (run [TEvent.createOwning, TEvent.createAlias 0,
        TEvent.destroy 1, TEvent.destroy 0]) ≤ 1
    ∧ (true = true) :=
  ⟨(c1_single_owner_finalize_once [TEvent.createOwning, TEvent.createAlias 0,
      TEvent.destroy 1, TEvent.destroy 0]).1,
   (c1_single_owner_finalize_once [TEvent.createOwning]).2.2.2
      (TEvent.createAlias 0) 0 true true (by decide) (by decide)⟩

end Utilities
